import Mathlib

/-!
Verification of the input-mask compiler and formatting engine
(`src/script.ts`).  The pattern compiler (`parseMask` and its helpers) and
the formatting engine (`formatValue` and the `consume*` family) are embedded
as executable Lean functions over `List Char`; strings of the source are
lists of characters, JavaScript's `Infinity` upper bound is `Option.none`,
and functions that `throw MaskError` return `Except String`.  The source's
`MaskNode[]` node sequences and `MaskNode[][]` alternative lists are the
mutually inductive `NodeList` and `AltList` (isomorphic to nested `List`s,
built through `NodeList.ofList`/`AltList.ofList`), so that the recursive
engine is structurally recursive and computable by reduction.
-/

namespace InputMask

/-- The three symbol kinds of the mask language: `'A'` (letter), `'0'`
(digit) and `'literal'`. -/
inductive SymbolKind where
  | A
  | zero
  | literal
deriving DecidableEq

/-- `SymbolNode` of the source: a kind, the optional literal value, and the
repetition bounds `min`/`max` (`max = none` models `Infinity`). -/
structure SymbolNode where
  kind : SymbolKind
  value : Option Char
  min : Nat
  max : Option Nat
deriving DecidableEq

mutual

/-- `MaskNode`: a symbol or a group of alternatives, mirroring the tagged
union of the source. -/
inductive MaskNode where
  | symbol (s : SymbolNode)
  | group (alternatives : AltList)
deriving DecidableEq

/-- A group's list of alternatives (the source's `MaskNode[][]`). -/
inductive AltList where
  | nil
  | cons (head : NodeList) (tail : AltList)
deriving DecidableEq

/-- A node sequence (the source's `MaskNode[]`). -/
inductive NodeList where
  | nil
  | cons (head : MaskNode) (tail : NodeList)
deriving DecidableEq

end

/-- Embed a plain list of nodes as a `NodeList`. -/
def NodeList.ofList : List MaskNode → NodeList
  | [] => .nil
  | n :: rest => .cons n (NodeList.ofList rest)

/-- Embed a plain list of node lists as an `AltList`. -/
def AltList.ofList : List (List MaskNode) → AltList
  | [] => .nil
  | a :: rest => .cons (NodeList.ofList a) (AltList.ofList rest)

/-- The alternatives of an `AltList` as a plain list. -/
def AltList.toList : AltList → List NodeList
  | .nil => []
  | .cons a rest => a :: AltList.toList rest

/-- Concatenation of node sequences (the source's `Array.concat`). -/
def NodeList.append : NodeList → NodeList → NodeList
  | .nil, t => t
  | .cons n rest, t => .cons n (NodeList.append rest t)

/-- `ParsedMask`: fragments and the separators between them. -/
structure ParsedMask where
  fragments : List NodeList
  separators : List (List Char)

/-- `ConsumeResult` of the source. -/
structure ConsumeResult where
  out : List Char
  raw : List Char
  pos : Nat
  satisfied : Bool
  advanced : Nat
deriving DecidableEq

/-- `LETTER_RE = /[A-Za-zЀ-ӿ]/`: Latin or Cyrillic letter. -/
def isLetterChar (c : Char) : Bool :=
  ('A' ≤ c && c ≤ 'Z') || ('a' ≤ c && c ≤ 'z') ||
    ('\u0400' ≤ c && c ≤ '\u04FF')

/-- `DIGIT_RE = /\d/`: an ASCII decimal digit. -/
def isDigitChar (c : Char) : Bool :=
  '0' ≤ c && c ≤ '9'

/-- JavaScript's `\s` character class (also the set trimmed by `trimEnd`):
whitespace and line terminators. -/
def jsWhitespace (c : Char) : Bool :=
  c = ' ' || c = '\t' || c = '\n' || c = '\r' || c = '\x0B' || c = '\x0C' ||
  c = '\u00A0' || c = '\u1680' ||
  ('\u2000' ≤ c && c ≤ '\u200A') ||
  c = '\u2028' || c = '\u2029' || c = '\u202F' ||
  c = '\u205F' || c = '\u3000' || c = '\uFEFF'

/-- Length of `dropWhile` never exceeds the length of the list (used for
termination of the scanning loops). -/
theorem dropWhile_len_le (p : Char → Bool) (l : List Char) :
    (l.dropWhile p).length ≤ l.length := by
  induction l with
  | nil => simp
  | cons a t ih =>
    simp only [List.dropWhile]
    split
    · simpa using Nat.le_succ_of_le ih
    · simp

/-- `makeSymbolNode` of the source: reject reserved characters, classify
`'A'`/`'0'`/literal, default bounds `min = max = 1`. -/
def makeSymbolNode (ch : Char) : Except String SymbolNode :=
  if ch = ':' || ch = '{' || ch = '}' || ch = '|' || ch = ']' then
    .error "Unexpected symbol"
  else if ch = '[' then
    .error "Unexpected opening bracket without pair"
  else if ch = 'A' then
    .ok { kind := .A, value := none, min := 1, max := some 1 }
  else if ch = '0' then
    .ok { kind := .zero, value := none, min := 1, max := some 1 }
  else
    .ok { kind := .literal, value := some ch, min := 1, max := some 1 }

/-- The digit-string test `^[1-9]\d*$` of `parseQuantifier`. -/
def isValidCount : List Char → Bool
  | [] => false
  | c :: rest => ('1' ≤ c && c ≤ '9') && rest.all isDigitChar

/-- Decimal value of a digit string (`Number(body)` on the valid bodies). -/
def natOfDigits (l : List Char) : Nat :=
  l.foldl (fun acc c => 10 * acc + (c.toNat - 48)) 0

/-- `parseQuantifier` of the source, applied to the text after the opening
brace: find the closing brace, then classify the body.  The returned rest
list carries its length bound for termination of the callers. -/
def parseQuantifier (l : List Char) :
    Except String (Nat × Option Nat × { r : List Char // r.length ≤ l.length }) :=
  if h : l.dropWhile (· ≠ '}') = [] then
    .error "Unclosed quantifier"
  else
    let body := l.takeWhile (· ≠ '}')
    if body = [] then
      .error "Empty quantifier is invalid"
    else if body = ['+'] then
      .ok (1, none, ⟨(l.dropWhile (· ≠ '}')).tail, by
        have h1 := dropWhile_len_le (· ≠ '}') l
        have h2 := List.length_tail (l.dropWhile (· ≠ '}'))
        omega⟩)
    else if isValidCount body then
      .ok (natOfDigits body, some (natOfDigits body), ⟨(l.dropWhile (· ≠ '}')).tail, by
        have h1 := dropWhile_len_le (· ≠ '}') l
        have h2 := List.length_tail (l.dropWhile (· ≠ '}'))
        omega⟩)
    else
      .error "Invalid quantifier"

/-- The nested `parseGroup` of `parseFragment`: scan the characters after an
opening `[[`, accumulating finished alternatives in `alts` and the current
alternative in `cur` (both reversed; the source pushes onto arrays).  The
returned rest list carries its length bound for termination of callers. -/
def parseGroupAux (l : List Char) (alts : List (List MaskNode)) (cur : List MaskNode) :
    Except String (MaskNode × { r : List Char // r.length ≤ l.length }) :=
  match l with
  | [] => .error "Unclosed group"
  | ':' :: _ :: _ => .error "Separators are not allowed inside groups"
  | '[' :: '[' :: rest =>
    match parseGroupAux rest [] [] with
    | .error e => .error e
    | .ok (g, r1) =>
      match parseGroupAux r1.val alts (g :: cur) with
      | .error e => .error e
      | .ok (g2, r2) =>
        .ok (g2, ⟨r2.val, by
          have a1 := r1.property
          have a2 := r2.property
          simp only [List.length_cons]
          omega⟩)
  | '|' :: rest =>
    if cur.isEmpty then .error "Empty alternative in group"
    else
      match parseGroupAux rest (cur.reverse :: alts) [] with
      | .error e => .error e
      | .ok (g, r1) =>
        .ok (g, ⟨r1.val, by
          have a1 := r1.property
          simp only [List.length_cons]
          omega⟩)
  | ']' :: ']' :: rest =>
    if cur.isEmpty then .error "Empty alternative in group"
    else .ok (.group (AltList.ofList ((cur.reverse :: alts).reverse)), ⟨rest, by
      simp only [List.length_cons]
      omega⟩)
  | ']' :: _ => .error "Unexpected symbol in group"
  | '{' :: _ => .error "Unexpected symbol in group"
  | '}' :: _ => .error "Unexpected symbol in group"
  | c :: '{' :: rest2 =>
    match makeSymbolNode c with
    | .error e => .error e
    | .ok node =>
      match parseQuantifier rest2 with
      | .error e => .error e
      | .ok (mn, mx, r3) =>
        match parseGroupAux r3.val alts (.symbol { node with min := mn, max := mx } :: cur) with
        | .error e => .error e
        | .ok (g, r4) =>
          .ok (g, ⟨r4.val, by
            have a3 := r3.property
            have a4 := r4.property
            simp only [List.length_cons]
            omega⟩)
  | c :: rest =>
    match makeSymbolNode c with
    | .error e => .error e
    | .ok node =>
      match parseGroupAux rest alts (.symbol node :: cur) with
      | .error e => .error e
      | .ok (g, r1) =>
        .ok (g, ⟨r1.val, by
          have a1 := r1.property
          simp only [List.length_cons]
          omega⟩)
termination_by l.length
decreasing_by
  · simp only [List.length_cons]
    omega
  · have a1 := r1.property
    simp only [List.length_cons]
    omega
  · simp only [List.length_cons]
    omega
  · have a3 := r3.property
    simp only [List.length_cons]
    omega
  · simp only [List.length_cons]
    omega

/-- `parseFragment` of the source: turn one fragment's text into its node
sequence (groups handled by `parseGroupAux`). -/
def parseFragmentAux (l : List Char) : Except String (List MaskNode) :=
  match l with
  | [] => .ok []
  | '[' :: '[' :: rest =>
    match parseGroupAux rest [] [] with
    | .error e => .error e
    | .ok (g, r1) =>
      if r1.val.headD ' ' = '{' then
        .error "Quantifiers cannot be applied to groups"
      else
        match parseFragmentAux r1.val with
        | .error e => .error e
        | .ok nodes => .ok (g :: nodes)
  | ']' :: _ => .error "Unexpected closing bracket"
  | '|' :: _ => .error "Unexpected pipe outside a group"
  | c :: '{' :: rest2 =>
    match makeSymbolNode c with
    | .error e => .error e
    | .ok node =>
      match parseQuantifier rest2 with
      | .error e => .error e
      | .ok (mn, mx, r3) =>
        match parseFragmentAux r3.val with
        | .error e => .error e
        | .ok nodes => .ok (.symbol { node with min := mn, max := mx } :: nodes)
  | c :: rest =>
    match makeSymbolNode c with
    | .error e => .error e
    | .ok node =>
      match parseFragmentAux rest with
      | .error e => .error e
      | .ok nodes => .ok (.symbol node :: nodes)
termination_by l.length
decreasing_by
  · have a1 := r1.property
    simp only [List.length_cons]
    omega
  · have a3 := r3.property
    simp only [List.length_cons]
    omega
  · simp only [List.length_cons]
    omega

/-- `splitBySeparators` of the source: scan the pattern tracking group
nesting `depth`; a top-level `:` opens a separator closed by the next `:`.
`cur`, `frags` and `seps` are the source's `current`, `fragments` and
`separators` accumulators (reversed). -/
def splitAux (l : List Char) (depth : Nat) (cur : List Char)
    (frags : List (List Char)) (seps : List (List Char)) :
    Except String (List (List Char) × List (List Char)) :=
  match l with
  | [] =>
    if depth ≠ 0 then .error "Unclosed group"
    else if cur = [] then .error "Empty fragment at end of pattern"
    else .ok ((cur.reverse :: frags).reverse, seps.reverse)
  | '[' :: '[' :: rest => splitAux rest (depth + 1) ('[' :: '[' :: cur) frags seps
  | ']' :: ']' :: rest =>
    if depth = 0 then .error "Unmatched closing group"
    else splitAux rest (depth - 1) (']' :: ']' :: cur) frags seps
  | ':' :: rest =>
    if depth = 0 then
      if h : rest.dropWhile (· ≠ ':') = [] then .error "Separator must be closed"
      else if cur = [] then .error "Empty fragment before separator"
      else splitAux ((rest.dropWhile (· ≠ ':')).tail) 0 []
        (cur.reverse :: frags) ((rest.takeWhile (· ≠ ':')) :: seps)
    else .error "Separators are not allowed inside groups"
  | c :: rest => splitAux rest depth (c :: cur) frags seps
termination_by l.length
decreasing_by
  · simp only [List.length_cons]
    omega
  · simp only [List.length_cons]
    omega
  · have h1 := dropWhile_len_le (· ≠ ':') rest
    have h2 := List.length_tail (rest.dropWhile (· ≠ ':'))
    simp only [List.length_cons]
    omega
  · simp only [List.length_cons]
    omega

/-- Map `parseFragmentAux` across the fragment texts (the source's
`rawFragments.map(parseFragment)`, with the first error propagated). -/
def parseFragments : List (List Char) → Except String (List NodeList)
  | [] => .ok []
  | f :: rest =>
    match parseFragmentAux f with
    | .error e => .error e
    | .ok nodes =>
      match parseFragments rest with
      | .error e => .error e
      | .ok fs => .ok (NodeList.ofList nodes :: fs)

/-- `parseMask` of the source: reject the empty pattern, split by
separators, parse every fragment. -/
def parseMask (pattern : List Char) : Except String ParsedMask :=
  if pattern = [] then .error "Pattern must be a non-empty string"
  else
    match splitAux pattern 0 [] [] [] with
    | .error e => .error e
    | .ok (fragTexts, seps) =>
      match parseFragments fragTexts with
      | .error e => .error e
      | .ok fs => .ok { fragments := fs, separators := seps }

/-- `matchesNode` of the source: does `ch` match the symbol's class? -/
def matchesNode (node : SymbolNode) (ch : Char) : Bool :=
  match node.kind with
  | .A => isLetterChar ch
  | .zero => isDigitChar ch
  | .literal => node.value = some ch

mutual

/-- `canStartWithChar` of the source: could the first node of the upcoming
sequence consume `ch` (recursing into a leading group's alternatives)? -/
def canStartWithChar : NodeList → Char → Bool
  | .nil, _ => false
  | .cons (.symbol s) _, ch => matchesNode s ch
  | .cons (.group alts) _, ch => canStartAlts alts ch

/-- The loop over a leading group's alternatives inside `canStartWithChar`. -/
def canStartAlts : AltList → Char → Bool
  | .nil, _ => false
  | .cons alt rest, ch => canStartWithChar alt ch || canStartAlts rest ch

end

/-- `separatorLengthAt` of the source: the length of the first non-empty
separator of the list that occurs at position `pos` of `input`, `0` if
none does. -/
def separatorLengthAt (input : List Char) (pos : Nat) : List (List Char) → Nat
  | [] => 0
  | sep :: rest =>
    if sep.isEmpty then separatorLengthAt input pos rest
    else if sep.isPrefixOf (input.drop pos) then sep.length
    else separatorLengthAt input pos rest

/-- A separator match at `pos` fits inside the input. -/
theorem separatorLengthAt_le (input : List Char) (pos : Nat) (seps : List (List Char)) :
    separatorLengthAt input pos seps ≠ 0 →
    pos + separatorLengthAt input pos seps ≤ input.length := by
  induction seps with
  | nil => simp [separatorLengthAt]
  | cons sep rest ih =>
    simp only [separatorLengthAt]
    split
    · exact ih
    · rename_i he
      split
      · rename_i hp
        intro _
        have hpre : sep <+: input.drop pos := List.isPrefixOf_iff_prefix.mp hp
        have hlen := hpre.length_le
        have hd : (input.drop pos).length = input.length - pos := List.length_drop pos input
        have hs : sep.length ≠ 0 := by
          intro h0
          have h1 : sep = [] := List.length_eq_zero.mp h0
          simp [h1] at he
        omega
      · exact ih

/-- The separator-skipping `while` loop at the top of each `consumeNodes`
iteration: repeatedly advance past any separator at the cursor.  The `fuel`
argument only bounds the number of loop iterations; every iteration
advances `pos` by at least one and a separator match never goes past the
end of the input (`separatorLengthAt_le`), so the `input.length` budget
supplied by `skipSeparators` is enough and the fuel-exhausted case (which
returns `pos` like the loop exit) is unreachable while a separator is
present. -/
def skipSeparatorsAux (input : List Char) (seps : List (List Char)) :
    Nat → Nat → Nat
  | 0, pos => pos
  | fuel + 1, pos =>
    let n := separatorLengthAt input pos seps
    if n = 0 then pos else skipSeparatorsAux input seps fuel (pos + n)

/-- The separator-skipping loop with its fuel budget. -/
def skipSeparators (input : List Char) (pos : Nat) (seps : List (List Char)) : Nat :=
  skipSeparatorsAux input seps input.length pos

/-- `count < node.max`, where `max = none` is `Infinity`. -/
def ltMax (max : Option Nat) (count : Nat) : Bool :=
  match max with
  | none => true
  | some m => count < m

/-- The scanning loop of `consumeSymbol`: `pos`, `count`, `out`, `raw` are
the loop variables of the source (the loop runs while `pos < input.length`
and `count < node.max`).  The `fuel` argument only bounds the number of
loop iterations; every iteration advances `pos` by one, so the
`input.length` budget supplied by `consumeSymbol` is enough and the
fuel-exhausted case (which returns the same record as the loop exit) is
unreachable while `pos < input.length`. -/
def consumeSymbolAux (node : SymbolNode) (input : List Char) (seps : List (List Char))
    (remainingNodes : NodeList) (startPos : Nat) :
    Nat → Nat → Nat → List Char → List Char → ConsumeResult
  | 0, pos, count, out, raw =>
    { out := out, raw := raw, pos := pos,
      satisfied := node.min ≤ count, advanced := pos - startPos }
  | fuel + 1, pos, count, out, raw =>
    if pos < input.length && ltMax node.max count then
      if separatorLengthAt input pos seps ≠ 0 then
        { out := out, raw := raw, pos := pos + separatorLengthAt input pos seps,
          satisfied := node.min ≤ count, advanced := pos - startPos }
      else if matchesNode node (input.getD pos ' ') then
        consumeSymbolAux node input seps remainingNodes startPos
          fuel (pos + 1) (count + 1) (out ++ [input.getD pos ' ']) (raw ++ [input.getD pos ' '])
      else if node.min ≤ count && canStartWithChar remainingNodes (input.getD pos ' ') then
        { out := out, raw := raw, pos := pos,
          satisfied := node.min ≤ count, advanced := pos - startPos }
      else
        consumeSymbolAux node input seps remainingNodes startPos
          fuel (pos + 1) count out raw
    else
      { out := out, raw := raw, pos := pos,
        satisfied := node.min ≤ count, advanced := pos - startPos }

/-- `consumeSymbol` of the source. -/
def consumeSymbol (node : SymbolNode) (input : List Char) (startPos : Nat)
    (seps : List (List Char)) (remainingNodes : NodeList) : ConsumeResult :=
  consumeSymbolAux node input seps remainingNodes startPos input.length startPos 0 [] []

/-- The `better` comparison of `consumeGroup`: longer recognized raw wins,
then smaller advancement, then `satisfied` over not. -/
def betterResult (result best : ConsumeResult) : Bool :=
  decide (best.raw.length < result.raw.length) ||
  (decide (result.raw.length = best.raw.length) && decide (result.advanced < best.advanced)) ||
  (decide (result.raw.length = best.raw.length) && decide (result.advanced = best.advanced) &&
    result.satisfied && !best.satisfied)

mutual

/-- `consumeNodes` of the source: consume the node sequence left to right,
skipping separators before each node; the lookahead passed down is the
remaining nodes of the sequence followed by `tailNodes`. -/
def consumeNodes (nodes : NodeList) (input : List Char) (startPos : Nat)
    (seps : List (List Char)) (tailNodes : NodeList) : ConsumeResult :=
  match nodes with
  | .nil => { out := [], raw := [], pos := startPos, satisfied := true, advanced := 0 }
  | .cons node rest =>
    let pos1 := skipSeparators input startPos seps
    let r := consumeNode node input pos1 seps (rest.append tailNodes)
    if r.satisfied then
      let r2 := consumeNodes rest input r.pos seps tailNodes
      { out := r.out ++ r2.out, raw := r.raw ++ r2.raw, pos := r2.pos,
        satisfied := r2.satisfied, advanced := r2.pos - startPos }
    else
      { out := r.out, raw := r.raw, pos := r.pos,
        satisfied := false, advanced := r.pos - startPos }

/-- `consumeNode` of the source: dispatch on the node kind. -/
def consumeNode (node : MaskNode) (input : List Char) (startPos : Nat)
    (seps : List (List Char)) (remainingNodes : NodeList) : ConsumeResult :=
  match node with
  | .symbol s => consumeSymbol s input startPos seps remainingNodes
  | .group alts =>
    consumeAlts alts input startPos seps remainingNodes
      { out := [], raw := [], pos := startPos, satisfied := false, advanced := 0 }

/-- The loop of `consumeGroup`: try every alternative from the same start
position and keep the better result. -/
def consumeAlts (alts : AltList) (input : List Char) (startPos : Nat)
    (seps : List (List Char)) (tailNodes : NodeList) (best : ConsumeResult) :
    ConsumeResult :=
  match alts with
  | .nil => best
  | .cons alt rest =>
    let r := consumeNodes alt input startPos seps tailNodes
    consumeAlts rest input startPos seps tailNodes (if betterResult r best then r else best)

end

/-- `consumeGroup` of the source: best-of-alternatives starting from the
empty unsatisfied result. -/
def consumeGroup (alts : AltList) (input : List Char) (startPos : Nat)
    (seps : List (List Char)) (tailNodes : NodeList) : ConsumeResult :=
  consumeAlts alts input startPos seps tailNodes
    { out := [], raw := [], pos := startPos, satisfied := false, advanced := 0 }

mutual

/-- `hasNonDigitSymbol` of the source: does the node sequence contain a
symbol whose kind is not `'0'`, searching through group alternatives? -/
def hasNonDigitSymbol : NodeList → Bool
  | .nil => false
  | .cons (.symbol s) rest => decide (s.kind ≠ .zero) || hasNonDigitSymbol rest
  | .cons (.group alts) rest => hasNonDigitAlts alts || hasNonDigitSymbol rest

/-- The loop over a group's alternatives inside `hasNonDigitSymbol`. -/
def hasNonDigitAlts : AltList → Bool
  | .nil => false
  | .cons alt rest => hasNonDigitSymbol alt || hasNonDigitAlts rest

end

/-- `input.split(/\s+/).filter(Boolean)`: the maximal runs of
non-whitespace characters, in order.  `acc` is the current word collected
so far, reversed. -/
def wordsAux : List Char → List Char → List (List Char)
  | [], acc => if acc.isEmpty then [] else [acc.reverse]
  | c :: rest, acc =>
    if jsWhitespace c then
      if acc.isEmpty then wordsAux rest []
      else acc.reverse :: wordsAux rest []
    else wordsAux rest (c :: acc)

/-- The word list of the input in manual-space mode. -/
def wordsOf (l : List Char) : List (List Char) :=
  wordsAux l []

/-- `/\s$/.test(s)`: does the string end in a whitespace character? -/
def endsWithWS (l : List Char) : Bool :=
  match l.reverse with
  | [] => false
  | c :: _ => jsWhitespace c

/-- `s.trimEnd()`: remove all trailing whitespace. -/
def dropTrailingWS (l : List Char) : List Char :=
  (l.reverse.dropWhile jsWhitespace).reverse

/-- `s.replace(/\s+$/, ' ')`: collapse a non-empty trailing whitespace run
to a single space; a string with no trailing whitespace is unchanged. -/
def collapseTrailingWS (l : List Char) : List Char :=
  if endsWithWS l then dropTrailingWS l ++ [' '] else l

/-- `Array.prototype.join(' ')` on the fragment outputs of manual-space
mode. -/
def spaceJoin : List (List Char) → List Char
  | [] => []
  | [p] => p
  | p :: q :: rest => p ++ ' ' :: spaceJoin (q :: rest)

/-- `joinWithSeparators` of the source: concatenate fragment outputs,
stopping at the first empty one, inserting `separators[i]` after output `i`
only when output `i+1` is non-empty. -/
def joinWithSeparators : List (List Char) → List (List Char) → List Char
  | [], _ => []
  | p :: rest, seps =>
    if p.isEmpty then []
    else
      match seps with
      | [] => p ++ joinWithSeparators rest []
      | s :: seps2 =>
        p ++ (if (rest.headD []).isEmpty then [] else s) ++ joinWithSeparators rest seps2

/-- Stable insertion of a separator into a list sorted by descending
length: placed before the first strictly shorter entry. -/
def insertByLen (s : List Char) : List (List Char) → List (List Char)
  | [] => [s]
  | t :: ts => if t.length < s.length then s :: t :: ts else t :: insertByLen s ts

/-- `separators.sort((a, b) => b.length - a.length)`: stable sort, longest
separator first. -/
def sortByLenDesc : List (List Char) → List (List Char)
  | [] => []
  | s :: rest => insertByLen s (sortByLenDesc rest)

/-- `parsed.fragments[i + 1]` used as the lookahead tail of contiguous
mode (`NodeList.nil` when there is no following fragment, matching the
`undefined` tail of the source). -/
def contiguousTail (fragments : List NodeList) (i : Nat) : NodeList :=
  (fragments.drop (i + 1)).headD .nil

/-- The fragment loop of contiguous mode: starting at fragment `i` and
cursor `pos`, collect the per-fragment outputs and the concatenated raw,
stopping after the first unsatisfied fragment.  `k` is the loop fuel,
`fragments.length` at the top call (the loop index `i` increases by one per
iteration, so the loop runs at most `fragments.length` times and fuel
exhaustion coincides with the end of the fragment list). -/
def contiguousGo (fragments : List NodeList) (input : List Char)
    (sepList : List (List Char)) : Nat → Nat → Nat → List (List Char) × List Char
  | 0, _, _ => ([], [])
  | k + 1, i, pos =>
    match fragments.drop i with
    | [] => ([], [])
    | fragNodes :: _ =>
      let r := consumeNodes fragNodes input pos sepList (contiguousTail fragments i)
      if r.satisfied then
        let rec2 := contiguousGo fragments input sepList k (i + 1) r.pos
        (r.out :: rec2.1, r.raw ++ rec2.2)
      else ([r.out], r.raw)

/-- The fragment loop of manual-space mode: fragment `i` is matched against
word `i` (`parts[i] ?? ''`) independently, with no separators and no
lookahead tail; stops after the first unsatisfied fragment. -/
def manualGo (fragments : List NodeList) (parts : List (List Char)) :
    Nat → Nat → List (List Char) × List Char
  | 0, _ => ([], [])
  | k + 1, i =>
    match fragments.drop i with
    | [] => ([], [])
    | fragNodes :: _ =>
      let r := consumeNodes fragNodes (parts.getD i []) 0 [] .nil
      if r.satisfied then
        let rec2 := manualGo fragments parts k (i + 1)
        (r.out :: rec2.1, r.raw ++ rec2.2)
      else ([r.out], r.raw)

/-- The manual-space-mode condition of `formatValue`: there is at least one
separator, every separator is a single space, and some fragment contains a
non-digit symbol. -/
def usesManualSpace (parsed : ParsedMask) : Bool :=
  (!parsed.separators.isEmpty && parsed.separators.all (fun s => s = [' '])) &&
    parsed.fragments.any (fun f => hasNonDigitSymbol f)

/-- The `{ raw, masked }` result of `formatValue`. -/
structure FormatResult where
  raw : List Char
  masked : List Char
deriving DecidableEq

/-- `formatValue` of the source: a `none` raw value is the empty string;
manual-space mode splits the input into words and fixes the trailing
whitespace of the joined output, contiguous mode scans the input with a
single cursor and joins the fragment outputs with the pattern's
separators. -/
def formatValue (parsed : ParsedMask) (rawValue : Option (List Char)) : FormatResult :=
  let input := match rawValue with
    | none => []
    | some s => s
  if usesManualSpace parsed then
    let parts := wordsOf input
    let res := manualGo parsed.fragments parts parsed.fragments.length 0
    let joined := spaceJoin res.1
    { raw := res.2,
      masked := if endsWithWS input then collapseTrailingWS joined else dropTrailingWS joined }
  else
    let sepList := sortByLenDesc (parsed.separators.filter (fun s => !s.isEmpty))
    let res := contiguousGo parsed.fragments input sepList parsed.fragments.length 0 0
    { raw := res.2, masked := joinWithSeparators res.1 parsed.separators }

/-! ### Concrete compiled masks used by the example-based claims -/

/-- The `0{n}` symbol node. -/
def digitSym (n : Nat) : MaskNode :=
  .symbol { kind := .zero, value := none, min := n, max := some n }

/-- The `A{+}` symbol node. -/
def letterPlus : MaskNode :=
  .symbol { kind := .A, value := none, min := 1, max := none }

/-- The compiled card-number mask `0{4}:-:0{4}:-:0{4}:-:0{4}`. -/
def cardMask : ParsedMask :=
  { fragments := [.cons (digitSym 4) .nil, .cons (digitSym 4) .nil,
                  .cons (digitSym 4) .nil, .cons (digitSym 4) .nil],
    separators := [['-'], ['-'], ['-']] }

/-- The compiled holder-name mask `A{+}: :A{+}` (manual-space mode). -/
def nameMask : ParsedMask :=
  { fragments := [.cons letterPlus .nil, .cons letterPlus .nil],
    separators := [[' ']] }

/-- The compiled mask `0:-:0:-:0` (three single-digit fragments). -/
def triMask : ParsedMask :=
  { fragments := [.cons (digitSym 1) .nil, .cons (digitSym 1) .nil,
                  .cons (digitSym 1) .nil],
    separators := [['-'], ['-']] }

/-! ### Quantifier parsing (C7) -/

/-- `parseQuantifier` without the termination bound on the rest list. -/
def parseQuantifierE (l : List Char) : Except String (Nat × Option Nat × List Char) :=
  match parseQuantifier l with
  | .error e => .error e
  | .ok (mn, mx, r) => .ok (mn, mx, r.val)

/-- `takeWhile (· ≠ c)` stops exactly at the first occurrence of `c`. -/
theorem takeWhile_append_stop (c : Char) (body rest : List Char) (h : c ∉ body) :
    (body ++ c :: rest).takeWhile (· ≠ c) = body := by
  induction body with
  | nil => simp [List.takeWhile]
  | cons b t ih =>
    have hb : b ≠ c := by
      intro hbc
      exact h (by simp [hbc])
    have ht : c ∉ t := fun hc => h (by simp [hc])
    rw [List.cons_append, List.takeWhile_cons, if_pos (by simp [hb]), ih ht]

/-- `dropWhile (· ≠ c)` stops exactly at the first occurrence of `c`. -/
theorem dropWhile_append_stop (c : Char) (body rest : List Char) (h : c ∉ body) :
    (body ++ c :: rest).dropWhile (· ≠ c) = c :: rest := by
  induction body with
  | nil => simp [List.dropWhile]
  | cons b t ih =>
    have hb : b ≠ c := by
      intro hbc
      exact h (by simp [hbc])
    have ht : c ∉ t := fun hc => h (by simp [hc])
    rw [List.cons_append, List.dropWhile_cons, if_pos (by simp [hb]), ih ht]

/-- Closed evaluation of `parseQuantifier` on a body followed by the
closing brace. -/
theorem parseQuantifierE_eval (body rest : List Char) (h : '}' ∉ body) :
    parseQuantifierE (body ++ '}' :: rest) =
      if body = [] then .error "Empty quantifier is invalid"
      else if body = ['+'] then .ok (1, none, rest)
      else if isValidCount body then .ok (natOfDigits body, some (natOfDigits body), rest)
      else .error "Invalid quantifier" := by
  have hdw := dropWhile_append_stop '}' body rest h
  have htw := takeWhile_append_stop '}' body rest h
  unfold parseQuantifierE parseQuantifier
  simp only [htw, hdw, List.tail_cons]
  rw [dif_neg (by simp)]
  split_ifs with h1 h2 h3
  · rfl
  · rfl
  · rfl
  · rfl

/-- C7: for a quantifier whose body is followed by the closing brace, a
body of `+` yields `min = 1` and unbounded `max`; a body matching
`^[1-9]\d*$` yields `min = max =` its decimal value; any other body is an
error, and in particular compiling the pattern `A{0}` fails with the
invalid-quantifier error. -/
theorem c7_quantifier_parsing (body rest : List Char) (h : '}' ∉ body) :
    (body = ['+'] → parseQuantifierE (body ++ '}' :: rest) = .ok (1, none, rest)) ∧
    (isValidCount body = true →
      parseQuantifierE (body ++ '}' :: rest) =
        .ok (natOfDigits body, some (natOfDigits body), rest)) ∧
    (body ≠ ['+'] → isValidCount body = false →
      ∃ e, parseQuantifierE (body ++ '}' :: rest) = .error e) ∧
    parseMask "A\x7b0\x7d".toList = .error "Invalid quantifier" := by
  have he := parseQuantifierE_eval body rest h
  refine ⟨?_, ?_, ?_, ?_⟩
  · intro hb
    subst hb
    simpa using he
  · intro hv
    have hne : body ≠ [] := by
      rintro rfl
      simp [isValidCount] at hv
    have hnp : body ≠ ['+'] := by
      rintro rfl
      simp [isValidCount] at hv
    rw [he, if_neg hne, if_neg hnp, if_pos hv]
  · intro hnp hnv
    by_cases hne : body = []
    · exact ⟨_, by rw [he, if_pos hne]⟩
    · exact ⟨_, by rw [he, if_neg hne, if_neg hnp, if_neg (by simp [hnv])]⟩
  · simp [parseMask, splitAux, parseFragments, parseFragmentAux, makeSymbolNode,
      parseQuantifier, isValidCount]

/-- Witness for C7 at the concrete bodies `3` and `+`. -/
theorem c7_quantifier_parsing_witness :
    parseQuantifierE (['3'] ++ '}' :: []) = .ok (3, some 3, []) ∧
    parseQuantifierE (['+'] ++ '}' :: []) = .ok (1, none, []) := by
  constructor
  · have h := (c7_quantifier_parsing ['3'] [] (by decide)).2.1 (by decide)
    simpa [natOfDigits] using h
  · exact (c7_quantifier_parsing ['+'] [] (by decide)).1 rfl

/-- C2: the card-number pattern `0{4}:-:0{4}:-:0{4}:-:0{4}` compiles to
`cardMask`; formatting `"4111 1111 1111 1111"` yields
`"4111-1111-1111-1111"`, and a space cannot start the lookahead (the
following fragment), so the spaces are skipped as stray characters. -/
theorem c2_card_format :
    parseMask "0\x7b4\x7d:-:0\x7b4\x7d:-:0\x7b4\x7d:-:0\x7b4\x7d".toList = .ok cardMask ∧
    (formatValue cardMask (some "4111 1111 1111 1111".toList)).masked =
      "4111-1111-1111-1111".toList ∧
    canStartWithChar (contiguousTail cardMask.fragments 0) ' ' = false := by
  refine ⟨?_, by decide, by decide⟩
  simp [parseMask, splitAux, parseFragments, parseFragmentAux, makeSymbolNode,
    parseQuantifier, isValidCount, natOfDigits, cardMask, digitSym, NodeList.ofList]

/-- A mask with a single fragment and no separators. -/
def noSepMask : ParsedMask :=
  { fragments := [.cons letterPlus .nil], separators := [] }

/-- C5: manual-space mode is used exactly when the separator list is
non-empty, every separator is a single space, and some fragment contains a
non-digit symbol; with no separators at all the mode is contiguous. -/
theorem c5_mode_selection (parsed : ParsedMask) :
    (usesManualSpace parsed = true ↔
      (parsed.separators ≠ [] ∧ (∀ s ∈ parsed.separators, s = [' ']) ∧
        ∃ f ∈ parsed.fragments, hasNonDigitSymbol f = true)) ∧
    (parsed.separators = [] → usesManualSpace parsed = false) := by
  constructor
  · simp [usesManualSpace, List.all_eq_true, List.any_eq_true,
      List.isEmpty_iff, and_assoc]
  · intro h
    simp [usesManualSpace, h]

/-- Witness for C5: `nameMask` is manual-space, a separator-free mask is
contiguous. -/
theorem c5_mode_selection_witness :
    usesManualSpace nameMask = true ∧ usesManualSpace noSepMask = false := by
  constructor
  · exact (c5_mode_selection nameMask).1.mpr (by decide)
  · exact (c5_mode_selection noSepMask).2 rfl

/-! ### Manual-space trailing whitespace (C6) -/

/-- The number of trailing whitespace characters of a string. -/
def trailingWSCount (l : List Char) : Nat :=
  (l.reverse.takeWhile jsWhitespace).length

/-- `takeWhile p` of a `dropWhile p` result is empty. -/
theorem takeWhile_dropWhile_nil (p : Char → Bool) (m : List Char) :
    (m.dropWhile p).takeWhile p = [] := by
  induction m with
  | nil => rfl
  | cons a t ih =>
    rw [List.dropWhile_cons]
    split
    · exact ih
    · rename_i hpa
      rw [List.takeWhile_cons, if_neg hpa]

/-- A string with no trailing whitespace has trailing count `0`. -/
theorem trailingWSCount_of_not_ends (l : List Char) (h : endsWithWS l = false) :
    trailingWSCount l = 0 := by
  unfold trailingWSCount
  unfold endsWithWS at h
  cases hr : l.reverse with
  | nil => simp [hr]
  | cons c t =>
    rw [hr] at h
    simp only at h
    rw [List.takeWhile_cons, if_neg (by simp [h])]
    rfl

/-- `trimEnd` leaves no trailing whitespace. -/
theorem trailingWSCount_dropTrailing (l : List Char) :
    trailingWSCount (dropTrailingWS l) = 0 := by
  unfold trailingWSCount dropTrailingWS
  rw [List.reverse_reverse, takeWhile_dropWhile_nil]
  rfl

/-- `replace(/\s+$/, ' ')` leaves at most one trailing whitespace
character. -/
theorem trailingWSCount_collapse_le_one (l : List Char) :
    trailingWSCount (collapseTrailingWS l) ≤ 1 := by
  unfold collapseTrailingWS
  split
  · unfold trailingWSCount dropTrailingWS
    rw [List.reverse_append, List.reverse_reverse]
    simp only [List.reverse_cons, List.reverse_nil, List.nil_append, List.singleton_append]
    rw [List.takeWhile_cons, if_pos (by simp [jsWhitespace]), takeWhile_dropWhile_nil]
    simp
  · rename_i hne
    have h0 := trailingWSCount_of_not_ends l (by simpa using hne)
    omega

/-- C6 (amended): in manual-space mode, a raw value that does not end in
whitespace formats to a masked string with no trailing whitespace, and a
raw value that ends in whitespace formats to a masked string with at most
one trailing space (exactly one only when the space-joined fragment
outputs themselves end in whitespace). -/
theorem c6_manual_trailing (parsed : ParsedMask) (input : List Char)
    (h : usesManualSpace parsed = true) :
    (endsWithWS input = false →
      trailingWSCount (formatValue parsed (some input)).masked = 0) ∧
    (endsWithWS input = true →
      trailingWSCount (formatValue parsed (some input)).masked ≤ 1) := by
  unfold formatValue
  rw [if_pos h]
  constructor
  · intro hw
    simp only [hw, Bool.false_eq_true, if_false]
    exact trailingWSCount_dropTrailing _
  · intro hw
    simp only [hw, if_true]
    exact trailingWSCount_collapse_le_one _

/-- Witness for C6's amended claim at `nameMask` and `"John "`. -/
theorem c6_manual_trailing_witness :
    trailingWSCount (formatValue nameMask (some "John ".toList)).masked ≤ 1 :=
  (c6_manual_trailing nameMask "John ".toList (by decide)).2 (by decide)

/-- C6 counterexample: `"John Smith "` ends in whitespace, yet the masked
output of the manual-space mask `A{+}: :A{+}` is `"John Smith"` with no
trailing space, contradicting "the output keeps exactly one trailing
space". -/
theorem c6_manual_trailing_counterexample :
    parseMask "A\x7b+\x7d: :A\x7b+\x7d".toList = .ok nameMask ∧
    endsWithWS "John Smith ".toList = true ∧
    (formatValue nameMask (some "John Smith ".toList)).masked = "John Smith".toList ∧
    endsWithWS "John Smith".toList = false := by
  refine ⟨?_, by decide, by decide, by decide⟩
  simp [parseMask, splitAux, parseFragments, parseFragmentAux, makeSymbolNode,
    parseQuantifier, isValidCount, natOfDigits, nameMask, letterPlus, NodeList.ofList]

/-! ### Lookahead tail of contiguous mode (C4) -/

/-- The first node of a node sequence, when any. -/
def NodeList.headOpt : NodeList → Option MaskNode
  | .nil => none
  | .cons n _ => some n

/-- Concatenation of the node sequences of a fragment list. -/
def joinNodeLists : List NodeList → NodeList
  | [] => .nil
  | f :: rest => f.append (joinNodeLists rest)

/-- Modelled from the spec: the lookahead tail the specification describes
for contiguous mode, the concatenated node sequences of all fragments after
fragment `i` (the source instead passes only `fragments[i + 1]`, see
`contiguousTail`). -/
def specTail (fragments : List NodeList) (i : Nat) : NodeList :=
  joinNodeLists (fragments.drop (i + 1))

/-- Modelled from the spec: the contiguous-mode fragment loop with the
all-subsequent-fragments lookahead tail `specTail` in place of
`contiguousTail`; otherwise identical to `contiguousGo`. -/
def specContiguousGo (fragments : List NodeList) (input : List Char)
    (sepList : List (List Char)) : Nat → Nat → Nat → List (List Char) × List Char
  | 0, _, _ => ([], [])
  | k + 1, i, pos =>
    match fragments.drop i with
    | [] => ([], [])
    | fragNodes :: _ =>
      let r := consumeNodes fragNodes input pos sepList (specTail fragments i)
      if r.satisfied then
        let rec2 := specContiguousGo fragments input sepList k (i + 1) r.pos
        (r.out :: rec2.1, r.raw ++ rec2.2)
      else ([r.out], r.raw)

/-- Modelled from the spec: `formatValue` with the spec's
all-subsequent-fragments lookahead in contiguous mode. -/
def formatValueSpec (parsed : ParsedMask) (rawValue : Option (List Char)) : FormatResult :=
  let input := match rawValue with
    | none => []
    | some s => s
  if usesManualSpace parsed then
    let parts := wordsOf input
    let res := manualGo parsed.fragments parts parsed.fragments.length 0
    let joined := spaceJoin res.1
    { raw := res.2,
      masked := if endsWithWS input then collapseTrailingWS joined else dropTrailingWS joined }
  else
    let sepList := sortByLenDesc (parsed.separators.filter (fun s => !s.isEmpty))
    let res := specContiguousGo parsed.fragments input sepList parsed.fragments.length 0 0
    { raw := res.2, masked := joinWithSeparators res.1 parsed.separators }

/-- `canStartWithChar` inspects only the first node of the lookahead. -/
theorem canStartWithChar_headOpt (t1 t2 : NodeList) (h : t1.headOpt = t2.headOpt) :
    canStartWithChar t1 = canStartWithChar t2 := by
  funext ch
  cases t1 with
  | nil =>
    cases t2 with
    | nil => rfl
    | cons n r => simp [NodeList.headOpt] at h
  | cons n1 r1 =>
    cases t2 with
    | nil => simp [NodeList.headOpt] at h
    | cons n2 r2 =>
      simp only [NodeList.headOpt, Option.some.injEq] at h
      subst h
      cases n1 <;> rfl

/-- The head of an appended node sequence. -/
theorem headOpt_append (a t : NodeList) :
    (a.append t).headOpt = match a with
      | .nil => t.headOpt
      | .cons n _ => some n := by
  cases a <;> rfl

/-- `consumeSymbol`'s loop uses the lookahead only through
`canStartWithChar`. -/
theorem consumeSymbolAux_congr (node : SymbolNode) (input : List Char)
    (seps : List (List Char)) (t1 t2 : NodeList) (startPos : Nat)
    (h : canStartWithChar t1 = canStartWithChar t2) :
    ∀ fuel pos count out raw,
      consumeSymbolAux node input seps t1 startPos fuel pos count out raw =
        consumeSymbolAux node input seps t2 startPos fuel pos count out raw := by
  intro fuel
  induction fuel with
  | zero => intro pos count out raw; rfl
  | succ k ih =>
    intro pos count out raw
    unfold consumeSymbolAux
    rw [h]
    simp only [ih]

mutual

/-- `consumeNodes` depends on the lookahead tail only through its first
node. -/
theorem consumeNodes_congr (nodes : NodeList) (input : List Char) (startPos : Nat)
    (seps : List (List Char)) (t1 t2 : NodeList) (h : t1.headOpt = t2.headOpt) :
    consumeNodes nodes input startPos seps t1 = consumeNodes nodes input startPos seps t2 :=
  match nodes with
  | .nil => rfl
  | .cons node rest => by
    have hl : (rest.append t1).headOpt = (rest.append t2).headOpt := by
      rw [headOpt_append, headOpt_append]
      cases rest <;> simp [h]
    unfold consumeNodes
    simp only [consumeNode_congr node input (skipSeparators input startPos seps) seps
        (rest.append t1) (rest.append t2) hl,
      consumeNodes_congr rest input
        (consumeNode node input (skipSeparators input startPos seps) seps
          (rest.append t2)).pos seps t1 t2 h]

/-- `consumeNode` depends on the lookahead only through its first node. -/
theorem consumeNode_congr (node : MaskNode) (input : List Char) (startPos : Nat)
    (seps : List (List Char)) (t1 t2 : NodeList) (h : t1.headOpt = t2.headOpt) :
    consumeNode node input startPos seps t1 = consumeNode node input startPos seps t2 :=
  match node with
  | .symbol s => by
    unfold consumeNode consumeSymbol
    rw [consumeSymbolAux_congr s input seps t1 t2 startPos (canStartWithChar_headOpt t1 t2 h)]
  | .group alts => by
    unfold consumeNode
    rw [consumeAlts_congr alts input startPos seps t1 t2 h]

/-- `consumeAlts` depends on the lookahead only through its first node. -/
theorem consumeAlts_congr (alts : AltList) (input : List Char) (startPos : Nat)
    (seps : List (List Char)) (t1 t2 : NodeList) (h : t1.headOpt = t2.headOpt) :
    ∀ best, consumeAlts alts input startPos seps t1 best =
      consumeAlts alts input startPos seps t2 best :=
  match alts with
  | .nil => fun best => rfl
  | .cons alt rest => fun best => by
    unfold consumeAlts
    rw [consumeNodes_congr alt input startPos seps t1 t2 h,
      consumeAlts_congr rest input startPos seps t1 t2 h]

end

/-- When every fragment is non-empty, the next-fragment tail and the spec's
all-subsequent-fragments tail agree on their first node, so the two
contiguous loops coincide. -/
theorem contiguousGo_spec (fragments : List NodeList) (input : List Char)
    (sepList : List (List Char)) (hne : ∀ f ∈ fragments, f ≠ .nil) :
    ∀ k i pos, contiguousGo fragments input sepList k i pos =
      specContiguousGo fragments input sepList k i pos := by
  intro k
  induction k with
  | zero => intro i pos; rfl
  | succ n ih =>
    intro i pos
    have htails : (contiguousTail fragments i).headOpt = (specTail fragments i).headOpt := by
      unfold contiguousTail specTail
      cases hd : fragments.drop (i + 1) with
      | nil => rfl
      | cons f rest2 =>
        have hf : f ∈ fragments := List.drop_subset _ _ (hd ▸ List.mem_cons_self f rest2)
        have hfne := hne f hf
        cases f with
        | nil => exact absurd rfl hfne
        | cons n0 r0 =>
          simp [joinNodeLists, NodeList.headOpt, NodeList.append, List.headD]
    unfold contiguousGo specContiguousGo
    cases hdi : fragments.drop i with
    | nil => rfl
    | cons fragNodes rest1 =>
      simp only [consumeNodes_congr fragNodes input pos sepList (contiguousTail fragments i)
          (specTail fragments i) htails, ih]

/-- C4 (amended): the lookahead tail the contiguous loop passes for
fragment `i` is the node sequence of fragment `i + 1` only; since boundary
decisions (`canStartWithChar`) inspect just the first lookahead node and
compiled fragments are never empty, this is observationally equivalent to
the claim's concatenation of all subsequent fragments. -/
theorem c4_lookahead_tail (parsed : ParsedMask) (v : Option (List Char))
    (hne : ∀ f ∈ parsed.fragments, f ≠ .nil) :
    formatValue parsed v = formatValueSpec parsed v := by
  unfold formatValue formatValueSpec
  by_cases hm : usesManualSpace parsed = true
  · simp only [hm, if_true]
  · simp only [hm, Bool.false_eq_true, if_false,
      contiguousGo_spec parsed.fragments _ _ hne parsed.fragments.length 0 0]

/-- Witness for C4's amended claim at the card mask. -/
theorem c4_lookahead_tail_witness :
    formatValue cardMask (some "4111111111111111".toList) =
      formatValueSpec cardMask (some "4111111111111111".toList) :=
  c4_lookahead_tail cardMask (some "4111111111111111".toList) (by decide)

/-- C4 counterexample: for the three-fragment mask `0:-:0:-:0`, the tail
the code passes while consuming fragment 0 is fragment 1's single node,
not the concatenation of fragments 1 and 2 described by the claim. -/
theorem c4_lookahead_tail_counterexample :
    parseMask "0:-:0:-:0".toList = .ok triMask ∧
    contiguousTail triMask.fragments 0 ≠ specTail triMask.fragments 0 := by
  constructor
  · simp [parseMask, splitAux, parseFragments, parseFragmentAux, makeSymbolNode,
      triMask, digitSym, NodeList.ofList]
  · decide

/-! ### Group alternative selection (C3) -/

/-- No result is strictly better than itself. -/
theorem betterResult_irrefl (x : ConsumeResult) : betterResult x x = false := by
  simp [betterResult]

/-- `betterResult` is a strict lexicographic comparison, so not-better is
transitive. -/
theorem betterResult_trans_le (x y z : ConsumeResult)
    (hxy : betterResult x y = false) (hyz : betterResult y z = false) :
    betterResult x z = false := by
  cases hsx : x.satisfied <;> cases hsy : y.satisfied <;> cases hsz : z.satisfied <;>
    simp [betterResult, hsx, hsy, hsz] at * <;> omega

/-- If `r` beats `best` but does not beat `out`, then `best` does not beat
`out` either. -/
theorem betterResult_lt_le (r best out : ConsumeResult)
    (h1 : betterResult r best = true) (h2 : betterResult r out = false) :
    betterResult best out = false := by
  cases hsr : r.satisfied <;> cases hsb : best.satisfied <;> cases hso : out.satisfied <;>
    simp [betterResult, hsr, hsb, hso] at * <;> omega

/-- The fold of `consumeAlts` returns an element of `best :: results` that
no alternative's result (nor `best`) strictly beats. -/
theorem consumeAlts_fold (alts : AltList) (input : List Char) (startPos : Nat)
    (seps : List (List Char)) (tailNodes : NodeList) :
    ∀ best,
      (consumeAlts alts input startPos seps tailNodes best ∈
        best :: alts.toList.map (fun alt => consumeNodes alt input startPos seps tailNodes)) ∧
      betterResult best (consumeAlts alts input startPos seps tailNodes best) = false ∧
      (∀ r ∈ alts.toList.map (fun alt => consumeNodes alt input startPos seps tailNodes),
        betterResult r (consumeAlts alts input startPos seps tailNodes best) = false) :=
  match alts with
  | .nil => fun best => by
    refine ⟨by simp [consumeAlts, AltList.toList], ?_, by simp [AltList.toList]⟩
    simp only [consumeAlts]
    exact betterResult_irrefl best
  | .cons alt rest => fun best => by
    have ih := consumeAlts_fold rest input startPos seps tailNodes
    have hstep : consumeAlts (.cons alt rest) input startPos seps tailNodes best =
        consumeAlts rest input startPos seps tailNodes
          (if betterResult (consumeNodes alt input startPos seps tailNodes) best
           then consumeNodes alt input startPos seps tailNodes else best) := rfl
    have hmap : (AltList.cons alt rest).toList.map
        (fun alt => consumeNodes alt input startPos seps tailNodes) =
        consumeNodes alt input startPos seps tailNodes ::
          rest.toList.map (fun alt => consumeNodes alt input startPos seps tailNodes) := rfl
    by_cases hbr : betterResult (consumeNodes alt input startPos seps tailNodes) best = true
    · have ihr := ih (consumeNodes alt input startPos seps tailNodes)
      rw [hstep, if_pos hbr, hmap]
      refine ⟨?_, ?_, ?_⟩
      · rcases List.mem_cons.mp ihr.1 with h | h
        · rw [h]
          exact List.mem_cons.mpr (Or.inr (List.mem_cons_self _ _))
        · exact List.mem_cons.mpr (Or.inr (List.mem_cons.mpr (Or.inr h)))
      · exact betterResult_lt_le _ _ _ hbr ihr.2.1
      · intro r hr
        rcases List.mem_cons.mp hr with h | h
        · rw [h]
          exact ihr.2.1
        · exact ihr.2.2 r h
    · have hbf : betterResult (consumeNodes alt input startPos seps tailNodes) best = false := by
        simpa using hbr
      have ihb := ih best
      rw [hstep, if_neg (by simp [hbf]), hmap]
      refine ⟨?_, ihb.2.1, ?_⟩
      · rcases List.mem_cons.mp ihb.1 with h | h
        · exact List.mem_cons.mpr (Or.inl h)
        · exact List.mem_cons.mpr (Or.inr (List.mem_cons.mpr (Or.inr h)))
      · intro r hr
        rcases List.mem_cons.mp hr with h | h
        · rw [h]
          exact betterResult_trans_le _ _ _ hbf ihb.2.1
        · exact ihb.2.2 r h

/-- C3: `consumeGroup` tries every alternative from the same start position
and returns the best result: an element of the default-or-alternative
results that no alternative's result strictly beats under the ordering
longer raw, then smaller advancement, then satisfied. -/
theorem c3_group_best (alts : AltList) (input : List Char) (startPos : Nat)
    (seps : List (List Char)) (tailNodes : NodeList) :
    (consumeGroup alts input startPos seps tailNodes ∈
      ({ out := [], raw := [], pos := startPos, satisfied := false, advanced := 0 } : ConsumeResult) ::
        alts.toList.map (fun alt => consumeNodes alt input startPos seps tailNodes)) ∧
    ((({ out := [], raw := [], pos := startPos, satisfied := false,
          advanced := 0 } : ConsumeResult) ::
        alts.toList.map (fun alt => consumeNodes alt input startPos seps tailNodes)).all
      (fun r => !betterResult r (consumeGroup alts input startPos seps tailNodes)) = true) := by
  have h := consumeAlts_fold alts input startPos seps tailNodes
    { out := [], raw := [], pos := startPos, satisfied := false, advanced := 0 }
  refine ⟨h.1, ?_⟩
  rw [List.all_eq_true]
  intro r hr
  rcases List.mem_cons.mp hr with h1 | h1
  · subst h1
    simp [consumeGroup, h.2.1]
  · simp [consumeGroup, h.2.2 r h1]

/-! ### Consumption invariants -/

/-- The cursor/raw invariant of one consumption step starting at
`startPos`: the cursor does not move backwards, the recognized raw text is
no longer than the cursor advance, the cursor stays inside the input, the
emitted text equals the recognized raw text, and every recognized character
occurs in the input. -/
def ResultInv (input : List Char) (startPos : Nat) (x : ConsumeResult) : Prop :=
  startPos ≤ x.pos ∧
  x.raw.length + startPos ≤ x.pos ∧
  (startPos ≤ input.length → x.pos ≤ input.length) ∧
  x.out = x.raw ∧
  (∀ c ∈ x.raw, c ∈ input)

/-- The separator-skipping loop moves the cursor forwards and keeps it
inside the input. -/
theorem skipSeparatorsAux_inv (input : List Char) (seps : List (List Char)) :
    ∀ fuel pos, pos ≤ skipSeparatorsAux input seps fuel pos ∧
      (pos ≤ input.length → skipSeparatorsAux input seps fuel pos ≤ input.length) := by
  intro fuel
  induction fuel with
  | zero => intro pos; exact ⟨Nat.le_refl _, fun h => h⟩
  | succ k ih =>
    intro pos
    unfold skipSeparatorsAux
    by_cases hn : separatorLengthAt input pos seps = 0
    · simp only [hn, if_pos rfl]
      exact ⟨Nat.le_refl _, fun h => h⟩
    · rw [if_neg (by simpa using hn)]
      have hb := separatorLengthAt_le input pos seps hn
      have ihp := ih (pos + separatorLengthAt input pos seps)
      exact ⟨Nat.le_trans (Nat.le_add_right _ _) ihp.1, fun _ => ihp.2 (by omega)⟩

/-- Invariants of the `consumeSymbol` scanning loop. -/
theorem consumeSymbolAux_inv (node : SymbolNode) (input : List Char)
    (seps : List (List Char)) (rem : NodeList) (startPos : Nat) :
    ∀ fuel pos count out raw,
      pos ≤ (consumeSymbolAux node input seps rem startPos fuel pos count out raw).pos ∧
      (consumeSymbolAux node input seps rem startPos fuel pos count out raw).raw.length + pos ≤
        raw.length + (consumeSymbolAux node input seps rem startPos fuel pos count out raw).pos ∧
      (pos ≤ input.length →
        (consumeSymbolAux node input seps rem startPos fuel pos count out raw).pos ≤ input.length) ∧
      (out = raw →
        (consumeSymbolAux node input seps rem startPos fuel pos count out raw).out =
          (consumeSymbolAux node input seps rem startPos fuel pos count out raw).raw) ∧
      (∀ c ∈ (consumeSymbolAux node input seps rem startPos fuel pos count out raw).raw,
        c ∈ raw ∨ c ∈ input) := by
  intro fuel
  induction fuel with
  | zero =>
    intro pos count out raw
    unfold consumeSymbolAux
    exact ⟨Nat.le_refl _, by dsimp only; omega, fun h => h, fun h => h, fun c hc => Or.inl hc⟩
  | succ k ih =>
    intro pos count out raw
    unfold consumeSymbolAux
    split_ifs with h1 h2 h3 h4
    · -- separator stop
      have hlt : pos < input.length := by
        simp only [Bool.and_eq_true, decide_eq_true_eq] at h1
        exact h1.1
      have hb := separatorLengthAt_le input pos seps h2
      exact ⟨Nat.le_add_right _ _, by dsimp only; omega, fun _ => by dsimp only; omega,
        fun h => h, fun c hc => Or.inl hc⟩
    · -- matched character consumed
      have hlt : pos < input.length := by
        simp only [Bool.and_eq_true, decide_eq_true_eq] at h1
        exact h1.1
      have hch : input.getD pos ' ' ∈ input := by
        rw [List.getD_eq_getElem input ' ' hlt]
        exact List.getElem_mem hlt
      have ihs := ih (pos + 1) (count + 1) (out ++ [input.getD pos ' ']) (raw ++ [input.getD pos ' '])
      refine ⟨by omega, ?_, fun hp => ihs.2.2.1 (by omega), ?_, ?_⟩
      · have := ihs.2.1
        simp only [List.length_append, List.length_singleton] at this
        omega
      · intro h
        exact ihs.2.2.2.1 (by rw [h])
      · intro c hc
        rcases ihs.2.2.2.2 c hc with h | h
        · rcases List.mem_append.mp h with h' | h'
          · exact Or.inl h'
          · rw [List.mem_singleton.mp h']
            exact Or.inr hch
        · exact Or.inr h
    · -- lookahead break
      exact ⟨Nat.le_refl _, by dsimp only; omega, fun h => h, fun h => h, fun c hc => Or.inl hc⟩
    · -- stray character skipped
      have hlt : pos < input.length := by
        simp only [Bool.and_eq_true, decide_eq_true_eq] at h1
        exact h1.1
      have ihs := ih (pos + 1) count out raw
      refine ⟨by omega, by omega, fun hp => ihs.2.2.1 (by omega), ihs.2.2.2.1, ihs.2.2.2.2⟩
    · -- loop guard false
      exact ⟨Nat.le_refl _, by dsimp only; omega, fun h => h, fun h => h, fun c hc => Or.inl hc⟩

/-- The empty unsatisfied result at `startPos` satisfies the invariant. -/
theorem ResultInv_default (input : List Char) (startPos : Nat) :
    ResultInv input startPos
      { out := [], raw := [], pos := startPos, satisfied := false, advanced := 0 } := by
  exact ⟨Nat.le_refl _, by simp, fun h => h, rfl, by simp⟩

mutual

/-- Invariants of `consumeNodes`. -/
theorem consumeNodes_inv (nodes : NodeList) (input : List Char) (startPos : Nat)
    (seps : List (List Char)) (tail : NodeList) :
    ResultInv input startPos (consumeNodes nodes input startPos seps tail) :=
  match nodes with
  | .nil => by
    unfold consumeNodes
    exact ⟨Nat.le_refl _, by simp, fun h => h, rfl, by simp⟩
  | .cons node rest => by
    have hskip := skipSeparatorsAux_inv input seps input.length startPos
    have hr := consumeNode_inv node input (skipSeparators input startPos seps) seps
      (rest.append tail)
    have hr2 := consumeNodes_inv rest input
      ((consumeNode node input (skipSeparators input startPos seps) seps
        (rest.append tail)).pos) seps tail
    unfold ResultInv at hr hr2 ⊢
    unfold consumeNodes
    unfold skipSeparators at hr hr2 ⊢
    by_cases hs : (consumeNode node input (skipSeparatorsAux input seps input.length startPos)
        seps (rest.append tail)).satisfied = true
    · simp only [hs, if_true]
      refine ⟨?_, ?_, ?_, ?_, ?_⟩
      · dsimp only
        omega
      · dsimp only
        simp only [List.length_append]
        omega
      · dsimp only
        intro hl
        exact hr2.2.2.1 (hr.2.2.1 (hskip.2 hl))
      · dsimp only
        rw [hr.2.2.2.1, hr2.2.2.2.1]
      · dsimp only
        intro c hc
        rcases List.mem_append.mp hc with h | h
        · exact hr.2.2.2.2 c h
        · exact hr2.2.2.2.2 c h
    · simp only [hs, Bool.false_eq_true, if_false]
      refine ⟨?_, ?_, ?_, ?_, ?_⟩
      · dsimp only
        omega
      · dsimp only
        omega
      · dsimp only
        intro hl
        exact hr.2.2.1 (hskip.2 hl)
      · dsimp only
        exact hr.2.2.2.1
      · dsimp only
        exact hr.2.2.2.2

/-- Invariants of `consumeNode`. -/
theorem consumeNode_inv (node : MaskNode) (input : List Char) (startPos : Nat)
    (seps : List (List Char)) (rem : NodeList) :
    ResultInv input startPos (consumeNode node input startPos seps rem) :=
  match node with
  | .symbol sn => by
    have h := consumeSymbolAux_inv sn input seps rem startPos input.length startPos 0 [] []
    unfold consumeNode consumeSymbol
    refine ⟨h.1, ?_, h.2.2.1, h.2.2.2.1 rfl, ?_⟩
    · have := h.2.1
      simpa using this
    · intro c hc
      rcases h.2.2.2.2 c hc with h0 | h0
      · exact absurd h0 (List.not_mem_nil c)
      · exact h0
  | .group alts => by
    have h := consumeAlts_inv alts input startPos seps rem
      { out := [], raw := [], pos := startPos, satisfied := false, advanced := 0 }
      (ResultInv_default input startPos)
    unfold consumeNode
    exact h

/-- Invariants of `consumeAlts`, given they hold for the running best. -/
theorem consumeAlts_inv (alts : AltList) (input : List Char) (startPos : Nat)
    (seps : List (List Char)) (tail : NodeList) :
    ∀ best, ResultInv input startPos best →
      ResultInv input startPos (consumeAlts alts input startPos seps tail best) :=
  match alts with
  | .nil => fun best hb => by
    unfold consumeAlts
    exact hb
  | .cons alt rest => fun best hb => by
    have hr := consumeNodes_inv alt input startPos seps tail
    have hrec := consumeAlts_inv rest input startPos seps tail
    unfold consumeAlts
    by_cases hbet : betterResult (consumeNodes alt input startPos seps tail) best = true
    · simp only [hbet, if_true]
      exact hrec _ hr
    · simp only [hbet, Bool.false_eq_true, if_false]
      exact hrec _ hb

end

/-- Total length of a list of words. -/
def sumLen (parts : List (List Char)) : Nat :=
  (parts.map List.length).sum

/-- `sumLen` of a cons. -/
theorem sumLen_cons (x : List Char) (xs : List (List Char)) :
    sumLen (x :: xs) = x.length + sumLen xs := by
  simp [sumLen]

/-- Indexing with default and dropping interact as expected. -/
theorem sumLen_drop_step (parts : List (List Char)) :
    ∀ i, (parts.getD i []).length + sumLen (parts.drop (i + 1)) ≤ sumLen (parts.drop i) := by
  induction parts with
  | nil => intro i; simp [sumLen]
  | cons p rest ih =>
    intro i
    cases i with
    | zero => simp [sumLen_cons]
    | succ j =>
      simp only [List.getD_cons_succ, List.drop_succ_cons]
      exact ih j

/-- The words of the input are no longer in total than the input plus the
current accumulator. -/
theorem wordsAux_sum_le (l : List Char) :
    ∀ acc, sumLen (wordsAux l acc) ≤ l.length + acc.length := by
  induction l with
  | nil =>
    intro acc
    unfold wordsAux
    split
    · simp [sumLen]
    · simp [sumLen_cons, sumLen]
  | cons c rest ih =>
    intro acc
    unfold wordsAux
    split
    · split
      · have := ih []
        simp only [List.length_nil] at this
        simp only [List.length_cons]
        omega
      · have := ih []
        simp only [List.length_nil] at this
        simp only [sumLen_cons, List.length_reverse, List.length_cons]
        omega
    · have := ih (c :: acc)
      simp only [List.length_cons] at this ⊢
      omega

/-- The contiguous loop recognizes at most the remaining input. -/
theorem contiguousGo_raw_le (fragments : List NodeList) (input : List Char)
    (sepList : List (List Char)) :
    ∀ k i pos, pos ≤ input.length →
      (contiguousGo fragments input sepList k i pos).2.length + pos ≤ input.length := by
  intro k
  induction k with
  | zero =>
    intro i pos hp
    simpa [contiguousGo] using hp
  | succ n ih =>
    intro i pos hp
    unfold contiguousGo
    cases hd : fragments.drop i with
    | nil => simpa using hp
    | cons fragNodes rest =>
      have hr := consumeNodes_inv fragNodes input pos sepList (contiguousTail fragments i)
      unfold ResultInv at hr
      by_cases hs : (consumeNodes fragNodes input pos sepList
          (contiguousTail fragments i)).satisfied = true
      · simp only [hs, if_true]
        have hrec := ih (i + 1)
          (consumeNodes fragNodes input pos sepList (contiguousTail fragments i)).pos
          (hr.2.2.1 hp)
        simp only [List.length_append]
        omega
      · simp only [hs, Bool.false_eq_true, if_false]
        have h1 := hr.2.1
        have h2 := hr.2.2.1 hp
        omega

/-- The manual-space loop recognizes at most the remaining words. -/
theorem manualGo_raw_le (fragments : List NodeList) (parts : List (List Char)) :
    ∀ k i, (manualGo fragments parts k i).2.length ≤ sumLen (parts.drop i) := by
  intro k
  induction k with
  | zero => intro i; simp [manualGo]
  | succ n ih =>
    intro i
    unfold manualGo
    cases hd : fragments.drop i with
    | nil => simp
    | cons fragNodes rest =>
      have hr := consumeNodes_inv fragNodes (parts.getD i []) 0 [] .nil
      unfold ResultInv at hr
      have hlen : (consumeNodes fragNodes (parts.getD i []) 0 [] .nil).raw.length ≤
          (parts.getD i []).length := by
        have h1 := hr.2.1
        have h2 := hr.2.2.1 (Nat.zero_le _)
        omega
      have hstep := sumLen_drop_step parts i
      by_cases hs : (consumeNodes fragNodes (parts.getD i []) 0 [] .nil).satisfied = true
      · simp only [hs, if_true]
        have hrec := ih (i + 1)
        simp only [List.length_append]
        omega
      · simp only [hs, Bool.false_eq_true, if_false]
        omega

/-- C1: `formatValue` never fails: a `none` (absent/null) raw value is
formatted exactly like the empty string, the result is a total function of
the compiled mask and the textual raw value, and the recognized raw prefix
never exceeds the input (the engine degrades to a partial masked prefix
instead of erroring). -/
theorem c1_format_never_throws (parsed : ParsedMask) (rawValue : Option (List Char)) :
    formatValue parsed rawValue = formatValue parsed (some (rawValue.getD [])) ∧
    (formatValue parsed rawValue).raw.length ≤ (rawValue.getD []).length := by
  have h1 : formatValue parsed rawValue = formatValue parsed (some (rawValue.getD [])) := by
    cases rawValue <;> rfl
  refine ⟨h1, ?_⟩
  rw [h1]
  unfold formatValue
  by_cases hm : usesManualSpace parsed = true
  · simp only [hm, if_true]
    have h2 := manualGo_raw_le parsed.fragments (wordsOf (rawValue.getD []))
      parsed.fragments.length 0
    have h3 : sumLen (wordsOf (rawValue.getD [])) ≤ (rawValue.getD []).length := by
      unfold wordsOf
      have := wordsAux_sum_le (rawValue.getD []) []
      simpa using this
    simp only [List.drop_zero] at h2
    omega
  · simp only [hm, Bool.false_eq_true, if_false]
    have h2 := contiguousGo_raw_le parsed.fragments (rawValue.getD [])
      (sortByLenDesc (parsed.separators.filter (fun s => !s.isEmpty)))
      parsed.fragments.length 0 0 (Nat.zero_le _)
    omega

/-- C9: a node consumption (symbol or group) emits exactly the raw
characters it recognized, in order, and every recognized character occurs
in the input: literal node characters are never invented. -/
theorem c9_out_eq_raw (node : MaskNode) (input : List Char) (startPos : Nat)
    (seps : List (List Char)) (tail : NodeList) :
    (consumeNode node input startPos seps tail).out =
      (consumeNode node input startPos seps tail).raw ∧
    ((consumeNode node input startPos seps tail).raw.all
      (fun c => decide (c ∈ input))) = true := by
  have h := consumeNode_inv node input startPos seps tail
  refine ⟨h.2.2.2.1, ?_⟩
  rw [List.all_eq_true]
  intro c hc
  simpa using h.2.2.2.2 c hc

/-! ### Wellformedness of compiled ASTs (C8, C10) -/

/-- C10's bound condition on a symbol node: `min` is at least one and
`max` is either `min` itself or unbounded. -/
def symBoundsOk (s : SymbolNode) : Bool :=
  1 ≤ s.min && (s.max = some s.min || s.max = none)

/-- Does a group's alternative list have at least one alternative? -/
def altsNonNil : AltList → Bool
  | .nil => false
  | .cons _ _ => true

/-- Is an alternative non-empty? -/
def altNonNil : NodeList → Bool
  | .nil => false
  | .cons _ _ => true

mutual

/-- Combined wellformedness of a compiled node: every symbol satisfies
`symBoundsOk` and every group has at least one alternative, none empty. -/
def wfNode : MaskNode → Bool
  | .symbol s => symBoundsOk s
  | .group alts => altsNonNil alts && wfAlts alts

/-- Wellformedness of a group's alternatives. -/
def wfAlts : AltList → Bool
  | .nil => true
  | .cons alt rest => altNonNil alt && wfNodes alt && wfAlts rest

/-- Wellformedness of a node sequence. -/
def wfNodes : NodeList → Bool
  | .nil => true
  | .cons n rest => wfNode n && wfNodes rest

end

mutual

/-- C8's group condition alone: every group has at least one alternative
and no alternative is empty. -/
def groupsOkNode : MaskNode → Bool
  | .symbol _ => true
  | .group alts => altsNonNil alts && groupsOkAlts alts

/-- Group condition over a group's alternatives. -/
def groupsOkAlts : AltList → Bool
  | .nil => true
  | .cons alt rest => altNonNil alt && groupsOkNodes alt && groupsOkAlts rest

/-- Group condition over a node sequence. -/
def groupsOkNodes : NodeList → Bool
  | .nil => true
  | .cons n rest => groupsOkNode n && groupsOkNodes rest

end

mutual

/-- C10's symbol condition alone, over a node. -/
def symsOkNode : MaskNode → Bool
  | .symbol s => symBoundsOk s
  | .group alts => symsOkAlts alts

/-- Symbol condition over a group's alternatives. -/
def symsOkAlts : AltList → Bool
  | .nil => true
  | .cons alt rest => symsOkNodes alt && symsOkAlts rest

/-- Symbol condition over a node sequence. -/
def symsOkNodes : NodeList → Bool
  | .nil => true
  | .cons n rest => symsOkNode n && symsOkNodes rest

end

mutual

/-- Combined wellformedness gives the group condition. -/
theorem groupsOk_of_wfNode (n : MaskNode) (h : wfNode n = true) : groupsOkNode n = true :=
  match n with
  | .symbol _ => rfl
  | .group alts => by
    unfold wfNode at h
    unfold groupsOkNode
    simp only [Bool.and_eq_true] at h ⊢
    exact ⟨h.1, groupsOk_of_wfAlts alts h.2⟩

/-- Combined wellformedness gives the group condition (alternatives). -/
theorem groupsOk_of_wfAlts (alts : AltList) (h : wfAlts alts = true) : groupsOkAlts alts = true :=
  match alts with
  | .nil => rfl
  | .cons alt rest => by
    unfold wfAlts at h
    unfold groupsOkAlts
    simp only [Bool.and_eq_true] at h ⊢
    exact ⟨⟨h.1.1, groupsOk_of_wfNodes alt h.1.2⟩, groupsOk_of_wfAlts rest h.2⟩

/-- Combined wellformedness gives the group condition (sequences). -/
theorem groupsOk_of_wfNodes (ns : NodeList) (h : wfNodes ns = true) : groupsOkNodes ns = true :=
  match ns with
  | .nil => rfl
  | .cons n rest => by
    unfold wfNodes at h
    unfold groupsOkNodes
    simp only [Bool.and_eq_true] at h ⊢
    exact ⟨groupsOk_of_wfNode n h.1, groupsOk_of_wfNodes rest h.2⟩

end

mutual

/-- Combined wellformedness gives the symbol condition. -/
theorem symsOk_of_wfNode (n : MaskNode) (h : wfNode n = true) : symsOkNode n = true :=
  match n with
  | .symbol _ => h
  | .group alts => by
    unfold wfNode at h
    unfold symsOkNode
    simp only [Bool.and_eq_true] at h
    exact symsOk_of_wfAlts alts h.2

/-- Combined wellformedness gives the symbol condition (alternatives). -/
theorem symsOk_of_wfAlts (alts : AltList) (h : wfAlts alts = true) : symsOkAlts alts = true :=
  match alts with
  | .nil => rfl
  | .cons alt rest => by
    unfold wfAlts at h
    unfold symsOkAlts
    simp only [Bool.and_eq_true] at h ⊢
    exact ⟨symsOk_of_wfNodes alt h.1.2, symsOk_of_wfAlts rest h.2⟩

/-- Combined wellformedness gives the symbol condition (sequences). -/
theorem symsOk_of_wfNodes (ns : NodeList) (h : wfNodes ns = true) : symsOkNodes ns = true :=
  match ns with
  | .nil => rfl
  | .cons n rest => by
    unfold wfNodes at h
    unfold symsOkNodes
    simp only [Bool.and_eq_true] at h ⊢
    exact ⟨symsOk_of_wfNode n h.1, symsOk_of_wfNodes rest h.2⟩

end

/-- `wfNodes` over an embedded plain list. -/
theorem wfNodes_ofList (ns : List MaskNode) :
    wfNodes (NodeList.ofList ns) = ns.all wfNode := by
  induction ns with
  | nil => rfl
  | cons n rest ih => simp [NodeList.ofList, wfNodes, ih]

/-- `altNonNil` over an embedded plain list. -/
theorem altNonNil_ofList (a : List MaskNode) :
    altNonNil (NodeList.ofList a) = !a.isEmpty := by
  cases a <;> rfl

/-- `wfAlts` over an embedded plain list of alternatives. -/
theorem wfAlts_ofList (L : List (List MaskNode)) :
    wfAlts (AltList.ofList L) =
      L.all (fun a => !a.isEmpty && a.all wfNode) := by
  induction L with
  | nil => rfl
  | cons a rest ih =>
    simp [AltList.ofList, wfAlts, altNonNil_ofList, wfNodes_ofList, ih, Bool.and_assoc]

/-- `makeSymbolNode` produces a wellformed symbol. -/
theorem makeSymbolNode_wf (c : Char) (node : SymbolNode)
    (h : makeSymbolNode c = .ok node) : symBoundsOk node = true := by
  unfold makeSymbolNode at h
  split_ifs at h <;> injection h with h1 <;> subst h1 <;> rfl

/-- The decimal value of a `^[1-9]\d*$` body is at least one. -/
theorem natOfDigits_pos (body : List Char) (h : isValidCount body = true) :
    1 ≤ natOfDigits body := by
  cases body with
  | nil => simp [isValidCount] at h
  | cons c rest =>
    simp only [isValidCount, Bool.and_eq_true, decide_eq_true_eq] at h
    have h1 : 49 ≤ c.toNat := by
      have := h.1.1
      simpa [Char.le_def] using this
    have haux : ∀ (l : List Char) (acc : Nat), 1 ≤ acc →
        1 ≤ l.foldl (fun acc c => 10 * acc + (c.toNat - 48)) acc := by
      intro l
      induction l with
      | nil => intro acc ha; simpa using ha
      | cons d t ih =>
        intro acc ha
        simp only [List.foldl_cons]
        exact ih _ (by omega)
    unfold natOfDigits
    simp only [List.foldl_cons]
    exact haux rest _ (by omega)

/-- `parseQuantifier` produces bounds with `min ≥ 1` and `max` equal to
`min` or unbounded. -/
theorem parseQuantifier_bounds (l : List Char) (mn : Nat) (mx : Option Nat)
    (r : { r : List Char // r.length ≤ l.length })
    (h : parseQuantifier l = .ok (mn, mx, r)) :
    1 ≤ mn ∧ (mx = some mn ∨ mx = none) := by
  unfold parseQuantifier at h
  split at h
  · exact absurd h (by simp)
  · dsimp only at h
    split at h
    · exact absurd h (by simp)
    · split at h
      · simp only [Except.ok.injEq, Prod.mk.injEq] at h
        obtain ⟨h1, h2, -⟩ := h
        subst h1
        exact ⟨Nat.le_refl 1, Or.inr h2.symm⟩
      · split at h
        · rename_i hvalid
          simp only [Except.ok.injEq, Prod.mk.injEq] at h
          obtain ⟨h1, h2, -⟩ := h
          subst h1
          exact ⟨natOfDigits_pos _ hvalid, Or.inl h2.symm⟩
        · exact absurd h (by simp)

end InputMask

open InputMask

/-- `makeSymbolNode` succeeds only on unreserved characters. -/
theorem makeSymbolNode_ok_chars (c : Char) (node : SymbolNode)
    (h : makeSymbolNode c = .ok node) :
    c ≠ ':' ∧ c ≠ '{' ∧ c ≠ '}' ∧ c ≠ '|' ∧ c ≠ ']' ∧ c ≠ '[' := by
  unfold makeSymbolNode at h
  split_ifs at h with h1 h2
  all_goals try simp at h
  all_goals
    simp only [Bool.or_eq_true, decide_eq_true_eq, not_or] at h1
  all_goals
    exact ⟨h1.1.1.1.1, h1.1.1.1.2, h1.1.1.2, h1.1.2, h1.2, h2⟩

/-- `altsNonNil` over an embedded plain list. -/
theorem altsNonNil_ofList (L : List (List MaskNode)) :
    altsNonNil (AltList.ofList L) = !L.isEmpty := by
  cases L <;> rfl

/-- Alternatives accumulated as non-empty lists of wellformed nodes yield a
wellformed group when `parseGroupAux` succeeds. -/
theorem parseGroupAux_wf (l : List Char) (alts : List (List MaskNode)) (cur : List MaskNode) :
    ∀ g r, parseGroupAux l alts cur = .ok (g, r) →
      (∀ a ∈ alts, a ≠ [] ∧ ∀ n ∈ a, wfNode n = true) →
      (∀ n ∈ cur, wfNode n = true) →
      wfNode g = true := by
  induction l, alts, cur using parseGroupAux.induct with
  | case1 alts cur =>
    intro g r heq halts hcur
    rw [parseGroupAux.eq_def] at heq
    simp at heq
  | case2 alts cur head tail =>
    intro g r heq halts hcur
    rw [parseGroupAux.eq_def] at heq
    simp at heq
  | case3 alts cur rest e hrec ih =>
    intro g r heq halts hcur
    rw [parseGroupAux.eq_def] at heq
    simp [hrec] at heq
  | case4 alts cur rest g1 r1 h1 e h2 ih1 ih2 =>
    intro g r heq halts hcur
    rw [parseGroupAux.eq_def] at heq
    simp [h1, h2] at heq
  | case5 alts cur rest g1 r1 h1 g2 r2 h2 ih1 ih2 =>
    intro g r heq halts hcur
    rw [parseGroupAux.eq_def] at heq
    simp only [h1, h2] at heq
    simp only [Except.ok.injEq, Prod.mk.injEq] at heq
    obtain ⟨hg, -⟩ := heq
    subst hg
    have hwf1 : wfNode g1 = true := ih1 g1 r1 h1 (by simp) (by simp)
    refine ih2 g2 r2 h2 halts ?_
    intro n hn
    rcases List.mem_cons.mp hn with hh | hh
    · rw [hh]
      exact hwf1
    · exact hcur n hh
  | case6 alts cur rest hemp =>
    intro g r heq halts hcur
    rw [parseGroupAux.eq_def] at heq
    simp [hemp] at heq
  | case7 alts cur rest hne e hrec ih =>
    intro g r heq halts hcur
    rw [parseGroupAux.eq_def] at heq
    simp [hne, hrec] at heq
  | case8 alts cur rest hne g1 r1 hrec ih =>
    intro g r heq halts hcur
    have hcne : cur ≠ [] := by
      simpa [List.isEmpty_iff] using hne
    rw [parseGroupAux.eq_def] at heq
    simp only [hne, hrec, Bool.false_eq_true, if_false] at heq
    simp only [Except.ok.injEq, Prod.mk.injEq] at heq
    obtain ⟨hg, -⟩ := heq
    subst hg
    refine ih g1 r1 hrec ?_ (by simp)
    intro a ha
    rcases List.mem_cons.mp ha with hh | hh
    · subst hh
      constructor
      · simpa [List.reverse_eq_nil_iff] using hcne
      · intro n hn
        exact hcur n (List.mem_reverse.mp hn)
    · exact halts a hh
  | case9 alts cur rest hemp =>
    intro g r heq halts hcur
    rw [parseGroupAux.eq_def] at heq
    simp [hemp] at heq
  | case10 alts cur rest hne =>
    intro g r heq halts hcur
    have hcne : cur ≠ [] := by
      simpa [List.isEmpty_iff] using hne
    rw [parseGroupAux.eq_def] at heq
    simp only [hne, Bool.false_eq_true, if_false] at heq
    simp only [Except.ok.injEq, Prod.mk.injEq] at heq
    obtain ⟨hg, -⟩ := heq
    subst hg
    unfold wfNode
    rw [Bool.and_eq_true]
    constructor
    · rw [altsNonNil_ofList]
      simp
    · rw [wfAlts_ofList, List.all_eq_true]
      intro a ha
      rw [List.mem_reverse] at ha
      rcases List.mem_cons.mp ha with hh | hh
      · subst hh
        simp only [Bool.and_eq_true, Bool.not_eq_true', List.isEmpty_iff, List.all_eq_true]
        constructor
        · simpa [List.reverse_eq_nil_iff] using hcne
        · intro n hn
          exact hcur n (List.mem_reverse.mp hn)
      · have hh2 := halts a hh
        simp only [Bool.and_eq_true, Bool.not_eq_true', List.all_eq_true]
        refine ⟨?_, hh2.2⟩
        cases a with
        | nil => exact absurd rfl hh2.1
        | cons _ _ => rfl
  | case11 alts cur tail hT =>
    intro g r heq halts hcur
    rw [parseGroupAux.eq_def] at heq
    cases tail with
    | nil => simp at heq
    | cons t0 ttail =>
      have ht0 : t0 ≠ ']' := fun hh => hT ttail (by rw [hh])
      simp [ht0] at heq
  | case12 alts cur tail =>
    intro g r heq halts hcur
    rw [parseGroupAux.eq_def] at heq
    simp at heq
  | case13 alts cur tail =>
    intro g r heq halts hcur
    rw [parseGroupAux.eq_def] at heq
    simp at heq
  | case14 alts cur c rest2 hc1 hc2 hc3 hc4 hc5 e hmk =>
    intro g r heq halts hcur
    rw [parseGroupAux.eq_def] at heq
    simp [hc1, hc2, hc3, hc4, hc5, hmk] at heq
  | case15 alts cur c rest2 hc1 hc2 hc3 hc4 hc5 node hmk e hq =>
    intro g r heq halts hcur
    rw [parseGroupAux.eq_def] at heq
    simp [hc1, hc2, hc3, hc4, hc5, hmk, hq] at heq
  | case16 alts cur c rest2 hc1 hc2 hc3 hc4 hc5 node hmk mn mx r3 hq e hrec ih =>
    intro g r heq halts hcur
    rw [parseGroupAux.eq_def] at heq
    simp [hc1, hc2, hc3, hc4, hc5, hmk, hq, hrec] at heq
  | case17 alts cur c rest2 hc1 hc2 hc3 hc4 hc5 node hmk mn mx r3 hq g2 r2 hrec ih =>
    intro g r heq halts hcur
    have hbounds := parseQuantifier_bounds rest2 mn mx r3 hq
    rw [parseGroupAux.eq_def] at heq
    simp only [hc1, hc2, hc3, hc4, hc5, hmk, hq, hrec] at heq
    simp [hc1, hc2, hc3, hc4, hc5] at heq
    obtain ⟨hg, -⟩ := heq
    subst hg
    refine ih g2 r2 hrec halts ?_
    intro n hn
    rcases List.mem_cons.mp hn with hh | hh
    · rw [hh]
      unfold wfNode symBoundsOk
      simp only [Bool.and_eq_true, Bool.or_eq_true, decide_eq_true_eq]
      exact ⟨hbounds.1, by rcases hbounds.2 with h | h <;> simp [h]⟩
    · exact hcur n hh
  | case18 alts cur c rest hA hB hC hD hE hF hG hH e hmk =>
    intro g r heq halts hcur
    have hchars : c ≠ ':' ∧ c ≠ '[' ∨ True := Or.inr trivial
    rw [parseGroupAux.eq_def] at heq
    cases rest with
    | nil => simp [hC, hE, hF, hG, hmk] at heq
    | cons r0 rtail =>
      have hr0 : r0 ≠ '{' := fun hh => hH rtail (by rw [hh])
      have hcr : ¬(c = ':') := fun hh => hA r0 rtail hh rfl
      have hbr : ¬(c = '[' ∧ r0 = '[') := by
        rintro ⟨hh1, hh2⟩
        exact hB rtail hh1 (by rw [hh2])
      have hdr : ¬(c = ']' ∧ r0 = ']') := by
        rintro ⟨hh1, hh2⟩
        exact hD rtail hh1 (by rw [hh2])
      by_cases hcb : c = '['
      · subst hcb
        have hr1 : r0 ≠ '[' := fun hh => hbr ⟨rfl, hh⟩
        simp [hr0, hr1, hmk] at heq
      · by_cases hcd : c = ']'
        · subst hcd
          have hr1 : r0 ≠ ']' := fun hh => hdr ⟨rfl, hh⟩
          simp [hE] at heq
        · simp [hcr, hcb, hcd, hC, hF, hG, hr0, hmk] at heq
  | case19 alts cur c rest hA hB hC hD hE hF hG hH node hmk e hrec ih =>
    intro g r heq halts hcur
    have hch := makeSymbolNode_ok_chars c node hmk
    rw [parseGroupAux.eq_def] at heq
    cases rest with
    | nil => simp [hch.1, hch.2.1, hch.2.2.1, hch.2.2.2.1, hch.2.2.2.2.1, hch.2.2.2.2.2,
        hmk, hrec] at heq
    | cons r0 rtail =>
      have hr0 : r0 ≠ '{' := fun hh => hH rtail (by rw [hh])
      have hbr : r0 ≠ '[' ∨ c ≠ '[' := Or.inr hch.2.2.2.2.2
      have hdr : r0 ≠ ']' ∨ c ≠ ']' := Or.inr hch.2.2.2.2.1
      simp [hch.1, hch.2.1, hch.2.2.1, hch.2.2.2.1, hch.2.2.2.2.1, hch.2.2.2.2.2,
        hr0, hmk, hrec] at heq
  | case20 alts cur c rest hA hB hC hD hE hF hG hH node hmk g1 r1 hrec ih =>
    intro g r heq halts hcur
    have hch := makeSymbolNode_ok_chars c node hmk
    have hwf : wfNode (.symbol node) = true := by
      unfold wfNode
      exact makeSymbolNode_wf c node hmk
    rw [parseGroupAux.eq_def] at heq
    have hmain : g1 = g := by
      cases rest with
      | nil =>
        simp [hch.1, hch.2.1, hch.2.2.1, hch.2.2.2.1, hch.2.2.2.2.1, hch.2.2.2.2.2,
          hmk, hrec] at heq
        exact heq.1
      | cons r0 rtail =>
        have hr0 : r0 ≠ '{' := fun hh => hH rtail (by rw [hh])
        simp [hch.1, hch.2.1, hch.2.2.1, hch.2.2.2.1, hch.2.2.2.2.1, hch.2.2.2.2.2,
          hr0, hmk, hrec] at heq
        exact heq.1
    subst hmain
    refine ih g1 r1 hrec halts ?_
    intro n hn
    rcases List.mem_cons.mp hn with hh | hh
    · rw [hh]
      exact hwf
    · exact hcur n hh

/-- A successfully parsed fragment consists of wellformed nodes. -/
theorem parseFragmentAux_wf (l : List Char) :
    ∀ nodes, parseFragmentAux l = .ok nodes → ∀ n ∈ nodes, wfNode n = true := by
  induction l using parseFragmentAux.induct with
  | case1 =>
    intro nodes heq n hn
    rw [parseFragmentAux.eq_def] at heq
    simp at heq
    subst heq
    simp at hn
  | case2 rest e hrec =>
    intro nodes heq n hn
    rw [parseFragmentAux.eq_def] at heq
    simp [hrec] at heq
  | case3 rest g r1 hg hh =>
    intro nodes heq n hn
    have hh2 : (r1.val).head?.getD ' ' = '{' := by
      rw [← List.headD_eq_head?_getD]
      exact hh
    rw [parseFragmentAux.eq_def] at heq
    simp [hg, hh2] at heq
  | case4 rest g r1 hg hh e hfr ih =>
    intro nodes heq n hn
    have hh2 : ¬(r1.val).head?.getD ' ' = '{' := by
      rw [← List.headD_eq_head?_getD]
      exact hh
    rw [parseFragmentAux.eq_def] at heq
    simp [hg, hh2, hfr] at heq
  | case5 rest g r1 hg hh nodes1 hfr ih =>
    intro nodes heq n hn
    have hh2 : ¬(r1.val).head?.getD ' ' = '{' := by
      rw [← List.headD_eq_head?_getD]
      exact hh
    rw [parseFragmentAux.eq_def] at heq
    simp [hg, hh2, hfr] at heq
    subst heq
    rcases List.mem_cons.mp hn with h | h
    · rw [h]
      exact parseGroupAux_wf rest [] [] g r1 hg (by simp) (by simp)
    · exact ih nodes1 hfr n h
  | case6 tail =>
    intro nodes heq n hn
    rw [parseFragmentAux.eq_def] at heq
    simp at heq
  | case7 tail =>
    intro nodes heq n hn
    rw [parseFragmentAux.eq_def] at heq
    simp at heq
  | case8 c rest2 hc1 hc2 e hmk =>
    intro nodes heq n hn
    rw [parseFragmentAux.eq_def] at heq
    simp [hc1, hc2, hmk] at heq
  | case9 c rest2 hc1 hc2 node hmk e hq =>
    intro nodes heq n hn
    rw [parseFragmentAux.eq_def] at heq
    simp [hc1, hc2, hmk, hq] at heq
  | case10 c rest2 hc1 hc2 node hmk mn mx r3 hq e hfr ih =>
    intro nodes heq n hn
    rw [parseFragmentAux.eq_def] at heq
    simp [hc1, hc2, hmk, hq, hfr] at heq
  | case11 c rest2 hc1 hc2 node hmk mn mx r3 hq nodes1 hfr ih =>
    intro nodes heq n hn
    have hbounds := parseQuantifier_bounds rest2 mn mx r3 hq
    rw [parseFragmentAux.eq_def] at heq
    simp [hc1, hc2, hmk, hq, hfr] at heq
    subst heq
    rcases List.mem_cons.mp hn with h | h
    · rw [h]
      unfold wfNode symBoundsOk
      simp only [Bool.and_eq_true, Bool.or_eq_true, decide_eq_true_eq]
      exact ⟨hbounds.1, by rcases hbounds.2 with h2 | h2 <;> simp [h2]⟩
    · exact ih nodes1 hfr n h
  | case12 c rest hA hc2 hc3 hH e hmk =>
    intro nodes heq n hn
    rw [parseFragmentAux.eq_def] at heq
    cases rest with
    | nil =>
      by_cases hcb : c = '['
      · subst hcb
        simp [hmk] at heq
      · simp [hcb, hc2, hc3, hmk] at heq
    | cons r0 rtail =>
      have hr0 : r0 ≠ '{' := fun hh => hH rtail (by rw [hh])
      by_cases hcb : c = '['
      · subst hcb
        have hr1 : r0 ≠ '[' := fun hh => hA rtail rfl (by rw [hh])
        simp [hr0, hr1, hmk] at heq
      · simp [hcb, hc2, hc3, hr0, hmk] at heq
  | case13 c rest hA hc2 hc3 hH node hmk e hfr ih =>
    intro nodes heq n hn
    have hch := makeSymbolNode_ok_chars c node hmk
    rw [parseFragmentAux.eq_def] at heq
    cases rest with
    | nil =>
      simp [hch.2.2.2.2.1, hch.2.2.2.2.2, hc2, hc3, hmk, hfr] at heq
    | cons r0 rtail =>
      have hr0 : r0 ≠ '{' := fun hh => hH rtail (by rw [hh])
      simp [hch.2.2.2.2.1, hch.2.2.2.2.2, hc2, hc3, hr0, hmk, hfr] at heq
  | case14 c rest hA hc2 hc3 hH node hmk nodes1 hfr ih =>
    intro nodes heq n hn
    have hch := makeSymbolNode_ok_chars c node hmk
    have hwf : wfNode (.symbol node) = true := by
      unfold wfNode
      exact makeSymbolNode_wf c node hmk
    rw [parseFragmentAux.eq_def] at heq
    have hmain : MaskNode.symbol node :: nodes1 = nodes := by
      cases rest with
      | nil =>
        simp [hch.2.2.2.2.1, hch.2.2.2.2.2, hc2, hc3, hmk, hfr] at heq
        simp [heq]
      | cons r0 rtail =>
        have hr0 : r0 ≠ '{' := fun hh => hH rtail (by rw [hh])
        simp [hch.2.2.2.2.1, hch.2.2.2.2.2, hc2, hc3, hr0, hmk, hfr] at heq
        simp [heq]
    subst hmain
    rcases List.mem_cons.mp hn with h | h
    · rw [h]
      exact hwf
    · exact ih nodes1 hfr n h

/-- Every fragment list produced by `parseFragments` is wellformed. -/
theorem parseFragments_wf : ∀ fts fs, parseFragments fts = .ok fs →
    ∀ f ∈ fs, wfNodes f = true := by
  intro fts
  induction fts with
  | nil =>
    intro fs heq f hf
    simp [parseFragments] at heq
    subst heq
    simp at hf
  | cons t rest ih =>
    intro fs heq f hf
    unfold parseFragments at heq
    cases hpf : parseFragmentAux t with
    | error e =>
      rw [hpf] at heq
      simp at heq
    | ok nodes =>
      rw [hpf] at heq
      cases hpr : parseFragments rest with
      | error e =>
        rw [hpr] at heq
        simp at heq
      | ok fs1 =>
        rw [hpr] at heq
        simp only [Except.ok.injEq] at heq
        subst heq
        rcases List.mem_cons.mp hf with h | h
        · rw [h, wfNodes_ofList, List.all_eq_true]
          exact parseFragmentAux_wf t nodes hpf
        · exact ih fs1 hpr f h

/-- Every fragment of a successfully compiled mask is wellformed. -/
theorem parseMask_wf (pat : List Char) (parsed : ParsedMask)
    (h : parseMask pat = .ok parsed) :
    ∀ f ∈ parsed.fragments, wfNodes f = true := by
  unfold parseMask at h
  by_cases h0 : pat = []
  · rw [if_pos h0] at h
    simp at h
  · rw [if_neg h0] at h
    cases hs : splitAux pat 0 [] [] [] with
    | error e =>
      rw [hs] at h
      simp at h
    | ok p =>
      rw [hs] at h
      obtain ⟨fragTexts, seps⟩ := p
      dsimp only at h
      cases hp : parseFragments fragTexts with
      | error e =>
        rw [hp] at h
        simp at h
      | ok fs =>
        rw [hp] at h
        simp only [Except.ok.injEq] at h
        subst h
        intro f hf
        exact parseFragments_wf fragTexts fs hp f hf

/-- C8: compiling `[[A|]]` fails with the empty-alternative error, and in
every successfully compiled mask every group has at least one alternative
and no alternative is empty. -/
theorem c8_empty_alternative (pat : List Char) (parsed : ParsedMask)
    (h : parseMask pat = .ok parsed) :
    parseMask "[[A|]]".toList = .error "Empty alternative in group" ∧
    ∀ f ∈ parsed.fragments, groupsOkNodes f = true := by
  constructor
  · simp [parseMask, splitAux, parseFragments, parseFragmentAux, parseGroupAux, makeSymbolNode]
  · intro f hf
    exact groupsOk_of_wfNodes f (parseMask_wf pat parsed h f hf)

/-- Witness for C8 at the pattern `A`. -/
theorem c8_empty_alternative_witness :
    groupsOkNodes (NodeList.cons
      (.symbol { kind := .A, value := none, min := 1, max := some 1 }) .nil) = true := by
  have hp : parseMask "A".toList = .ok
      { fragments := [NodeList.cons
          (.symbol { kind := .A, value := none, min := 1, max := some 1 }) .nil],
        separators := [] } := by
    simp [parseMask, splitAux, parseFragments, parseFragmentAux, makeSymbolNode, NodeList.ofList]
  exact (c8_empty_alternative "A".toList _ hp).2 _ (by simp)

/-- C10: every symbol node of a successfully compiled mask has `min ≥ 1`
and `max` equal to `min` or unbounded, so a satisfied symbol consumed at
least one matching character. -/
theorem c10_symbol_bounds (pat : List Char) (parsed : ParsedMask)
    (h : parseMask pat = .ok parsed) :
    ∀ f ∈ parsed.fragments, symsOkNodes f = true := by
  intro f hf
  exact symsOk_of_wfNodes f (parseMask_wf pat parsed h f hf)

/-- Witness for C10 at the pattern `0{3}`. -/
theorem c10_symbol_bounds_witness :
    symsOkNodes (NodeList.cons (digitSym 3) .nil) = true := by
  have hp : parseMask "0\x7b3\x7d".toList = .ok
      { fragments := [NodeList.cons (digitSym 3) .nil], separators := [] } := by
    simp [parseMask, splitAux, parseFragments, parseFragmentAux, makeSymbolNode,
      parseQuantifier, isValidCount, natOfDigits, digitSym, NodeList.ofList]
  exact c10_symbol_bounds "0\x7b3\x7d".toList _ hp _ (by simp)
